import Mathlib

/-!
A shallow embedding of the block-buffered hashing framework of the hash
toolkit, together with the padding and finalization layers of its algorithms
(SHA-1, MD5, MD2, SHA-3/SHAKE, Streebog, Tiger/Tiger2, BLAKE2, Groestl,
Shabal).  Per-block compression internals and S-box tables are opaque
parameters (the spec treats them as precomputed constants, and their source
files are not part of the scoped core); the buffering, padding, counter and
output-discipline logic is embedded faithfully and verified below.
-/

namespace Hashes

/-- Bytes are modelled as natural numbers (owners keep values below 256). -/
abbrev Byte := Nat

/-- Fuel-driven worker for `splitBlocks`; the fuel bounds the list length. -/
def splitBlocksGo (bs : Nat) : Nat → List Byte → List (List Byte) × List Byte
  | 0, l => ([], l)
  | fuel+1, l =>
    if 0 < bs ∧ bs ≤ l.length then
      let r := splitBlocksGo bs fuel (l.drop bs)
      (l.take bs :: r.1, r.2)
    else ([], l)

/-- Modelled from the spec: the Block Buffer (the `block-buffer` crate, which
is not under `src/`) splits pending bytes plus new input into zero or more
full blocks of size `bs`, forwarded in order, plus a remainder retained
internally. -/
def splitBlocks (bs : Nat) (l : List Byte) : List (List Byte) × List Byte :=
  splitBlocksGo bs l.length l

/-- A hashing instance: an opaque compression state plus the Block Buffer's
pending bytes. -/
structure HashBuf (σ : Type) where
  state : σ
  buf : List Byte

/-- Modelled from the spec: `update(bytes)` runs the pending remainder plus
the new input through greedy block splitting, forwards each full block, in
order, to the compression step `f`, and retains the remainder (the
`CoreWrapper` and `BlockBuffer` of the `digest` crate are not under `src/`). -/
def bufUpdate {σ : Type} (bs : Nat) (f : σ → List Byte → σ)
    (h : HashBuf σ) (input : List Byte) : HashBuf σ :=
  let p := splitBlocks bs (h.buf ++ input)
  ⟨p.1.foldl f h.state, p.2⟩

/-- Absorbing a list of chunks one `update` call at a time. -/
def bufUpdateChunks {σ : Type} (bs : Nat) (f : σ → List Byte → σ)
    (h : HashBuf σ) (chunks : List (List Byte)) : HashBuf σ :=
  chunks.foldl (bufUpdate bs f) h

/-! ### Padding policies

`digest_pad`, `len64_padding_le`, `len64_padding_be`, `pad_with` and the
`Pkcs7` / `Iso7816` paddings live in the external `block-buffer` crate and
are not under `src/`; they are modelled from the spec below.  The SHA-3
domain-separation padding, in contrast, is embedded from
`src/sha3/src/paddings.rs`. -/

/-- Little-endian byte serialization of a machine word (`w` bytes). -/
def natToLEBytes (w : Nat) (v : Nat) : List Byte :=
  (List.range w).map (fun i => (v >>> (8 * i)) % 256)

/-- Big-endian byte serialization of a machine word (`w` bytes). -/
def natToBEBytes (w : Nat) (v : Nat) : List Byte :=
  (List.range w).map (fun i => (v >>> (8 * (w - 1 - i))) % 256)

/-- Little-endian value of a byte string. -/
def bytesToNatLE (l : List Byte) : Nat :=
  l.foldr (fun b acc => b % 256 + 256 * acc) 0

/-- Byte-wise XOR of two equally long byte strings. -/
def xorBytes (a b : List Byte) : List Byte :=
  List.zipWith (fun x y => x ^^^ y) a b

/-- Modelled from the spec: `digest_pad(delim, suffix)` writes the terminator
byte at the current position, zero-fills, and places `suffix` at the end of
the block; if the remaining space cannot hold the terminator plus the suffix,
a zero-filled block is emitted first.  Returns the block sequence handed to
the compression callback, in order. -/
def digestPad (bs : Nat) (delim : Byte) (suffix : List Byte)
    (buf : List Byte) : List (List Byte) :=
  if buf.length + 1 + suffix.length ≤ bs then
    [buf ++ delim :: List.replicate (bs - buf.length - 1 - suffix.length) 0
      ++ suffix]
  else
    [buf ++ delim :: List.replicate (bs - buf.length - 1) 0,
     List.replicate (bs - suffix.length) 0 ++ suffix]

/-- Modelled from the spec: `len64_padding_le` is `digest_pad` with terminator
`0x80` and the 64-bit bit-length, little-endian, as suffix. -/
def len64PaddingLE (bs : Nat) (bitLen : Nat) (buf : List Byte) :
    List (List Byte) :=
  digestPad bs 0x80 (natToLEBytes 8 bitLen) buf

/-- Modelled from the spec: `len64_padding_be` is `digest_pad` with terminator
`0x80` and the 64-bit bit-length, big-endian, as suffix. -/
def len64PaddingBE (bs : Nat) (bitLen : Nat) (buf : List Byte) :
    List (List Byte) :=
  digestPad bs 0x80 (natToBEBytes 8 bitLen) buf

/-- Modelled from the spec: the `Pkcs7` value-fill padding used by MD2
completes the block with `k = bs - pos` bytes each holding the literal value
`k`; it errs when the position is not below the block size. -/
def pkcs7Pad (bs : Nat) (buf : List Byte) : Option (List Byte) :=
  if buf.length < bs then
    some (buf ++ List.replicate (bs - buf.length) (bs - buf.length))
  else none

/-- Modelled from the spec: the `Iso7816` padding used by Shabal writes a
`0x80` terminator and zero-fills; it errs when the position is not below the
block size. -/
def iso7816Pad (bs : Nat) (buf : List Byte) : Option (List Byte) :=
  if buf.length < bs then
    some (buf ++ 0x80 :: List.replicate (bs - buf.length - 1) 0)
  else none

/-- Embedded from `src/sha3/src/paddings.rs` (`impl_padding`): write the
domain-separation byte `p` at the current position, zero-fill the rest of the
rate-sized block, then OR `0x80` into the last byte of the block; return the
error value when the position is not strictly below the block size. -/
def sha3Pad (p : Byte) (bs : Nat) (buf : List Byte) : Option (List Byte) :=
  if bs ≤ buf.length then none
  else
    let b1 := buf ++ p :: List.replicate (bs - buf.length - 1) 0
    some (b1.set (bs - 1) ((b1.getD (bs - 1) 0) ||| 0x80))

/-- Domain-separation byte of the Keccak padding (`impl_padding` at `0x01`). -/
def keccakPadByte : Byte := 0x01

/-- Domain-separation byte of the SHA-3 padding (`impl_padding` at `0x06`). -/
def sha3PadByte : Byte := 0x06

/-- Domain-separation byte of the SHAKE padding (`impl_padding` at `0x1f`). -/
def shakePadByte : Byte := 0x1f

/-! ### Public operation sequences (for the buffer-position invariant) -/

/-- A public absorbing operation on a hasher: an `update` call with an
arbitrary byte string, or a `reset`. -/
inductive HashOp where
  | update (data : List Byte)
  | reset

/-- Modelled from the spec: running a sequence of public operations on a
hasher.  `reset` restores the initial state and empties the Block Buffer. -/
def runOps {σ : Type} (bs : Nat) (f : σ → List Byte → σ) (s0 : σ)
    (h : HashBuf σ) : List HashOp → HashBuf σ
  | [] => h
  | HashOp.update data :: rest => runOps bs f s0 (bufUpdate bs f h data) rest
  | HashOp.reset :: rest => runOps bs f s0 ⟨s0, []⟩ rest

/-! ### SHA-1 and MD5 cores (`src/sha1/src/lib.rs`, `src/md5/src/lib.rs`) -/

/-- Core SHA-1 hasher state: five 32-bit words plus a 64-bit block counter. -/
structure Sha1St where
  h : List Nat
  blockLen : Nat

/-- Embedded from `Sha1Core::update_blocks`: the counter grows by the number
of blocks and the blocks are handed to the compression function.  The
multi-block loop of the compression module (not part of the scoped core) is
modelled from the spec: each full block is compressed once, in order. -/
def sha1UpdateBlocks (compress1 : List Nat → List Byte → List Nat)
    (c : Sha1St) (blocks : List (List Byte)) : Sha1St :=
  ⟨blocks.foldl compress1 c.h, (c.blockLen + blocks.length) % 2 ^ 64⟩

/-- Core MD5 hasher state: four 32-bit words plus a 64-bit block counter. -/
structure Md5St where
  state : List Nat
  blockLen : Nat

/-- Embedded from `Md5Core::update_blocks`: the counter grows (wrapping) by
the number of blocks and the blocks are handed to the compression function,
one at a time, in order (the loop is modelled from the spec as for SHA-1). -/
def md5UpdateBlocks (compress1 : List Nat → List Byte → List Nat)
    (c : Md5St) (blocks : List (List Byte)) : Md5St :=
  ⟨blocks.foldl compress1 c.state, (c.blockLen + blocks.length) % 2 ^ 64⟩

/-! ### MD2 core (`src/md2/src/lib.rs`)

The 256-entry substitution table `S` (in `consts.rs`, outside the scoped
core) is an opaque parameter. -/

/-- Core MD2 hasher state: the 48-byte state plus the 16-byte checksum. -/
structure Md2St where
  x : List Byte
  checksum : List Byte

/-- One inner MD2 substitution pass over the 48 state bytes, threading the
`t` byte: each cell becomes `cell XOR S t`, and `t` follows the new cell. -/
def md2RoundGo (S : Nat → Byte) : List Byte → Nat → List Byte × Nat
  | [], t => ([], t)
  | a :: rest, t =>
    let a1 := a ^^^ S t
    let pr := md2RoundGo S rest a1
    (a1 :: pr.1, pr.2)

/-- The 18 substitution rounds of `Md2Core::compress`; after round `j` the
threaded byte is bumped by `j` (wrapping on a byte). -/
def md2Rounds (S : Nat → Byte) (x : List Byte) : List Byte :=
  ((List.range 18).foldl
    (fun (p : List Byte × Nat) j =>
      let pr := md2RoundGo S p.1 p.2
      (pr.1, (pr.2 + j) % 256))
    (x, 0)).1

/-- The checksum update loop of `Md2Core::compress`: each checksum byte is
XORed with `S (block-byte XOR l)` where `l` threads the previous result. -/
def md2CsumGo (S : Nat → Byte) : List Byte → List Byte → Nat → List Byte
  | c :: cs, b :: bl, l =>
    let c1 := c ^^^ S (b ^^^ l)
    c1 :: md2CsumGo S cs bl c1
  | _, _, _ => []

/-- Embedded from `Md2Core::compress`: load the block into the middle third
of the state, XOR it with the first third into the last third, run the 18
substitution passes, then update the running checksum from the block. -/
def md2Compress (S : Nat → Byte) (st : Md2St) (block : List Byte) : Md2St :=
  let x1 := st.x.take 16 ++ block
    ++ List.zipWith (fun b a => b ^^^ a) block (st.x.take 16)
  ⟨md2Rounds S x1, md2CsumGo S st.checksum block (st.checksum.getD 15 0)⟩

/-- Embedded from `Md2Core::update_blocks`: compress each block in order. -/
def md2UpdateBlocks (S : Nat → Byte) (st : Md2St)
    (blocks : List (List Byte)) : Md2St :=
  blocks.foldl (md2Compress S) st

/-- Embedded from `Md2Core::finalize_fixed_core`: value-fill pad the pending
bytes, compress the padded block, then compress one extra block equal to the
current running checksum, and emit the first 16 state bytes. -/
def md2FinalizeCore (S : Nat → Byte) (st : Md2St) (buf : List Byte) :
    Option (List Byte) :=
  (pkcs7Pad 16 buf).map fun block =>
    let st1 := md2Compress S st block
    let checksum := st1.checksum
    let st2 := md2Compress S st1 checksum
    st2.x.take 16

/-! ### SHA-3 / SHAKE finalization and reader (`src/sha3/src/macros.rs`)

The 1600-bit Keccak state and its permutation come from an external crate;
they are opaque parameters `asBytes` / `applyF` here. -/

/-- Embedded from `finalize_fixed_core` of `sha3_impl`: pad the pending bytes
(`pad_with`, which errs only when the position reaches the block size),
absorb exactly the one padded block, and serialize the leading state bytes. -/
def sha3FinalizeFixed {α : Type} (p : Byte) (bs : Nat)
    (absorb : α → List Byte → α) (asBytes : α → List Byte) (outLen : Nat)
    (st : α) (buf : List Byte) : Option (List Byte) :=
  (sha3Pad p bs buf).map fun b => (asBytes (absorb st b)).take outLen

/-- Embedded from `finalize_xof_core` of `shake_impl`: pad, absorb the one
padded block, and return the reader holding a clone of the post-absorption
state; the first component is the hasher core's own state afterwards. -/
def finalizeXofCore {α : Type} (p : Byte) (bs : Nat)
    (absorb : α → List Byte → α) (st : α) (buf : List Byte) :
    Option (α × α) :=
  (sha3Pad p bs buf).map fun b =>
    let st1 := absorb st b
    (st1, st1)

/-- Embedded from `read_block` of `shake_impl`: serialize the first `rate`
bytes of the current state, then apply the permutation in place once. -/
def readBlockCore {α : Type} (rate : Nat) (asBytes : α → List Byte)
    (applyF : α → α) (st : α) : List Byte × α :=
  ((asBytes st).take rate, applyF st)

/-- Reading `n` consecutive blocks from a block source. -/
def readBlocks {α : Type} (next : α → List Byte × α) :
    α → Nat → List Byte × α
  | st, 0 => ([], st)
  | st, n+1 =>
    let pr := next st
    let rest := readBlocks next pr.2 n
    (pr.1 ++ rest.1, rest.2)

/-- An extendable-output reader: the cloned permutation state plus the bytes
of the current block not yet handed to the caller. -/
structure XofReader (α : Type) where
  st : α
  pending : List Byte

/-- Modelled from the spec: `reader.read(buffer)` fills the requested number
of bytes by repeated squeeze, serving leftover bytes of the previous block
first and pulling as many further `rate`-sized blocks as needed (the
`XofReaderCoreWrapper` of the `digest` crate is not under `src/`). -/
def readerRead {α : Type} (rate : Nat) (next : α → List Byte × α)
    (r : XofReader α) (k : Nat) : List Byte × XofReader α :=
  if k ≤ r.pending.length then
    (r.pending.take k, ⟨r.st, r.pending.drop k⟩)
  else
    let need := k - r.pending.length
    let m := (need + rate - 1) / rate
    let pr := readBlocks next r.st m
    let all := r.pending ++ pr.1
    (all.take k, ⟨pr.2, all.drop k⟩)

/-- Number of fresh blocks a `readerRead` call pulls from the state. -/
def readerBlocksUsed {α : Type} (rate : Nat) (r : XofReader α) (k : Nat) :
    Nat :=
  if k ≤ r.pending.length then 0
  else (k - r.pending.length + rate - 1) / rate

/-- The byte stream visible to a reader after pulling `n` fresh blocks. -/
def readerBytes {α : Type} (next : α → List Byte × α) (r : XofReader α)
    (n : Nat) : List Byte :=
  r.pending ++ (readBlocks next r.st n).1

/-- A hasher/reader pair; advancing the reader (one `read_block` call) leaves
the hasher component untouched, mirroring that `read_block` borrows the
reader alone. -/
def pairAdvance {α β : Type} (next : β → List Byte × β) (p : α × β) :
    α × β :=
  (p.1, (next p.2).2)

/-! ### Streebog (`src/streebog/src/streebog.rs`)

The 8x256 shuffled linear table and the twelve round constants (in
`table.rs` / `consts.rs`, outside the scoped core) are opaque parameters
`tbl` and `Cc`. -/

/-- Embedded from `lps`: XOR the 64-byte operand into the state, then rebuild
eight 64-bit words by folding the table over the byte columns, serialized
back to little-endian bytes. -/
def lps (tbl : Nat → Nat → Nat) (h n : List Byte) : List Byte :=
  let hx := xorBytes h n
  (((List.range 8).map fun w =>
    natToLEBytes 8
      ((List.range 8).foldl (fun acc j => acc ^^^ tbl j (hx.getD (w + 8 * j) 0))
        0))).flatten

/-- Embedded from `StreebogState::g`: derive the first round key from the
state and counter, run twelve LPS rounds on (block, key), and feed the result
forward by XOR with the previous state and the message. -/
def streebogG (tbl : Nat → Nat → Nat) (Cc : Nat → List Byte)
    (h n m : List Byte) : List Byte :=
  let key0 := lps tbl h n
  let pr := (List.range 12).foldl
    (fun (p : List Byte × List Byte) i => (lps tbl p.1 p.2, lps tbl p.2 (Cc i)))
    (m, key0)
  xorBytes (xorBytes (xorBytes h pr.1) pr.2) m

/-- Streebog hash state: the 64-byte state and the two 512-bit counters
(message bit length `n` and running checksum `sigma`), kept as naturals below
`2 ^ 512` exactly as the carry chains of the source compute them. -/
structure StreebogSt where
  h : List Byte
  n : Nat
  sigma : Nat

/-- Embedded from `StreebogState::compress`: apply `g` keyed by the current
bit-length counter, then add `8 * msgLen` into `n` and the block (as a
little-endian 512-bit value) into `sigma`, both mod `2 ^ 512`. -/
def streebogCompress (tbl : Nat → Nat → Nat) (Cc : Nat → List Byte)
    (st : StreebogSt) (block : List Byte) (msgLen : Nat) : StreebogSt :=
  ⟨streebogG tbl Cc st.h (natToLEBytes 64 st.n) block,
   (st.n + 8 * msgLen) % 2 ^ 512,
   (st.sigma + bytesToNatLE block) % 2 ^ 512⟩

/-- Embedded from `StreebogState::update_blocks`: compress each 64-byte block
in order with `msg_len = 64`. -/
def streebogUpdateBlocks (tbl : Nat → Nat → Nat) (Cc : Nat → List Byte)
    (st : StreebogSt) (blocks : List (List Byte)) : StreebogSt :=
  blocks.foldl (fun s b => streebogCompress tbl Cc s b 64) st

/-- The block sequence produced by Streebog's padding call
(`buffer.digest_pad(1, [], ..)` in `StreebogState::finalize`). -/
def streebogPadBlocks (buf : List Byte) : List (List Byte) :=
  digestPad 64 1 [] buf

/-- Embedded from `StreebogState::finalize`: pad with `digest_pad(1, [])`,
compress the padded block with `msg_len` equal to the pending byte count,
then apply `g` twice more with a zero key-counter: over the bit-length
counter, then over the checksum. -/
def streebogFinalize (tbl : Nat → Nat → Nat) (Cc : Nat → List Byte)
    (st : StreebogSt) (buf : List Byte) : StreebogSt :=
  let pos := buf.length
  let st1 := (streebogPadBlocks buf).foldl
    (fun s b => streebogCompress tbl Cc s b pos) st
  let h2 := streebogG tbl Cc st1.h (List.replicate 64 0)
    (natToLEBytes 64 st1.n)
  let h3 := streebogG tbl Cc h2 (List.replicate 64 0)
    (natToLEBytes 64 st1.sigma)
  ⟨h3, st1.n, st1.sigma⟩

/-! ### Tiger and Tiger2 (`src/tiger/src/lib.rs`)

Both cores call the same `compress` function (its module is outside the
scoped core), taken as the parameter `f`. -/

/-- Tiger hasher state: three 64-bit words plus a 64-bit block counter. -/
structure TigerSt where
  state : List Nat
  blockLen : Nat

/-- Embedded from the `Default` instance of `TigerCore`. -/
def tigerIV : List Nat :=
  [0x0123456789ABCDEF, 0xFEDCBA9876543210, 0xF096A5B4C3B2E187]

/-- Embedded from the `Default` instance of `Tiger2Core`. -/
def tiger2IV : List Nat :=
  [0x0123456789ABCDEF, 0xFEDCBA9876543210, 0xF096A5B4C3B2E187]

/-- Embedded from `TigerCore::update_blocks` (loop order modelled from the
spec, as for SHA-1). -/
def tigerUpdateBlocks (f : List Nat → List Byte → List Nat)
    (c : TigerSt) (blocks : List (List Byte)) : TigerSt :=
  ⟨blocks.foldl f c.state, (c.blockLen + blocks.length) % 2 ^ 64⟩

/-- Embedded from `Tiger2Core::update_blocks` (loop order modelled from the
spec, as for SHA-1). -/
def tiger2UpdateBlocks (f : List Nat → List Byte → List Nat)
    (c : TigerSt) (blocks : List (List Byte)) : TigerSt :=
  ⟨blocks.foldl f c.state, (c.blockLen + blocks.length) % 2 ^ 64⟩

/-- Embedded from `TigerCore::finalize_fixed_core`: 64-bit bit length,
`digest_pad` with terminator `0x01` and the little-endian bit length as
suffix, then the three state words serialized little-endian. -/
def tigerFinalizeCore (f : List Nat → List Byte → List Nat)
    (c : TigerSt) (buf : List Byte) : List Byte :=
  let bitLen := (8 * (buf.length + 64 * c.blockLen)) % 2 ^ 64
  let st := (digestPad 64 1 (natToLEBytes 8 bitLen) buf).foldl f c.state
  ((st.take 3).map (natToLEBytes 8)).flatten

/-- Embedded from `Tiger2Core::finalize_fixed_core`: identical except that
the padding call is `len64_padding_le`, whose terminator is `0x80`. -/
def tiger2FinalizeCore (f : List Nat → List Byte → List Nat)
    (c : TigerSt) (buf : List Byte) : List Byte :=
  let bitLen := (8 * (buf.length + 64 * c.blockLen)) % 2 ^ 64
  let st := (len64PaddingLE 64 bitLen buf).foldl f c.state
  ((st.take 3).map (natToLEBytes 8)).flatten

/-- Stated from the spec's words for comparison: a single Tiger-family
finalization parametrized only by the padding terminator byte. -/
def tigerFinalizeWith (delim : Byte) (f : List Nat → List Byte → List Nat)
    (c : TigerSt) (buf : List Byte) : List Byte :=
  let bitLen := (8 * (buf.length + 64 * c.blockLen)) % 2 ^ 64
  let st := (digestPad 64 delim (natToLEBytes 8 bitLen) buf).foldl f c.state
  ((st.take 3).map (natToLEBytes 8)).flatten

/-! ### BLAKE2 construction (`src/blake2/src/macros.rs`) and Groestl
construction (`src/groestl/src/lib.rs`) -/

/-- Observable result of a constructing call: a value, the construction
error (`InvalidOutputSize`), or an aborted run (a failed `assert`). -/
inductive Outcome (α : Type) where
  | ok (a : α)
  | err
  | panicked
  deriving DecidableEq

/-- Whether a construction yielded a usable hasher. -/
def Outcome.isOk {α : Type} : Outcome α → Bool
  | Outcome.ok _ => true
  | _ => false

/-- The two salt / persona branches of `new_with_params`: a string shorter
than the capacity is zero-padded on the right, a capacity-length string is
used as given. -/
def blake2PadParam (cap : Nat) (s : List Byte) : List Byte :=
  if s.length < cap then s ++ List.replicate (cap - s.length) 0 else s

/-- Embedded from `new_with_params` of `blake2_impl`: assert the key size,
output size, salt and persona bounds (a violated assert aborts, it does not
return an error value), build the parameter block, zero-padding short salt
and persona strings on the right, and XOR it into the IV.  `wbits` is the
word width in bits, `bytesMax` the maximal output size in bytes; the salt
and persona capacity is `bytesMax / 4` bytes (two words). -/
def blake2NewWithParams (wbits bytesMax : Nat) (iv : List Nat)
    (salt persona : List Byte) (keySize outputSize : Nat) :
    Outcome (List Nat × Nat) :=
  let length := bytesMax / 4
  if keySize > bytesMax ∨ outputSize > bytesMax
      ∨ salt.length > length ∨ persona.length > length then
    Outcome.panicked
  else
    let p0 := (0x01010000 ^^^ ((keySize % 2 ^ wbits) <<< 8) % 2 ^ wbits
      ^^^ outputSize % 2 ^ wbits) % 2 ^ wbits
    let saltP := blake2PadParam length salt
    let p4 := bytesToNatLE (saltP.take (length / 2))
    let p5 := bytesToNatLE (saltP.drop (length / 2))
    let personaP := blake2PadParam length persona
    let p6 := bytesToNatLE (personaP.take (length / 2))
    let p7 := bytesToNatLE (personaP.drop (length / 2))
    Outcome.ok
      (List.zipWith (fun a b => a ^^^ b) iv [p0, 0, 0, 0, p4, p5, p6, p7], 0)

/-- Embedded from `VariableOutputCore::new` of `blake2_impl`: return the
construction error when the requested size exceeds the maximum, otherwise
construct with empty salt and persona and zero key size. -/
def blake2VarNew (wbits bytesMax : Nat) (iv : List Nat) (outputSize : Nat) :
    Outcome (List Nat × Nat) :=
  if outputSize > bytesMax then Outcome.err
  else blake2NewWithParams wbits bytesMax iv [] [] 0 outputSize

/-- BLAKE2b instantiation (64-bit words, 64-byte maximal output). -/
def blake2bNew (iv : List Nat) (outputSize : Nat) :
    Outcome (List Nat × Nat) :=
  blake2VarNew 64 64 iv outputSize

/-- BLAKE2s instantiation (32-bit words, 32-byte maximal output). -/
def blake2sNew (iv : List Nat) (outputSize : Nat) :
    Outcome (List Nat × Nat) :=
  blake2VarNew 32 32 iv outputSize

/-- BLAKE2b `new_with_params` instantiation. -/
def blake2bNewWithParams (iv : List Nat) (salt persona : List Byte)
    (keySize outputSize : Nat) : Outcome (List Nat × Nat) :=
  blake2NewWithParams 64 64 iv salt persona keySize outputSize

/-- BLAKE2s `new_with_params` instantiation. -/
def blake2sNewWithParams (iv : List Nat) (salt persona : List Byte)
    (keySize outputSize : Nat) : Outcome (List Nat × Nat) :=
  blake2NewWithParams 32 32 iv salt persona keySize outputSize

/-- Groestl hasher state: the column words plus a block counter. -/
structure GroestlSt where
  state : List Nat
  blocksLen : Nat

/-- Embedded from `GroestlShortVarCore::new`: err when the requested size
exceeds 32 bytes, otherwise zero columns with `8 * output_size` in the last
of the eight columns (the column count is the spec's parameter table value;
the compression module is outside the scoped core). -/
def groestlShortNew (outputSize : Nat) : Outcome GroestlSt :=
  if outputSize > 32 then Outcome.err
  else Outcome.ok ⟨List.replicate 7 0 ++ [(8 * outputSize) % 2 ^ 64], 0⟩

/-- Embedded from `GroestlLongVarCore::new`: err when the requested size
exceeds 64 bytes, otherwise zero columns with `8 * output_size` in the last
of the sixteen columns. -/
def groestlLongNew (outputSize : Nat) : Outcome GroestlSt :=
  if outputSize > 64 then Outcome.err
  else Outcome.ok ⟨List.replicate 15 0 ++ [(8 * outputSize) % 2 ^ 64], 0⟩

/-! ## Theorems -/

/-! ### Block splitting and buffering lemmas -/

theorem splitBlocksGo_congr (bs : Nat) :
    ∀ f1 f2 l, l.length ≤ f1 → l.length ≤ f2 →
      splitBlocksGo bs f1 l = splitBlocksGo bs f2 l := by
  intro f1
  induction f1 with
  | zero =>
    intro f2 l h1 _
    have hl : l = [] := List.eq_nil_of_length_eq_zero (Nat.le_zero.mp h1)
    subst hl
    cases f2 with
    | zero => rfl
    | succ f2 =>
      simp only [splitBlocksGo, List.length_nil]
      rw [if_neg]
      omega
  | succ f1 ih =>
    intro f2 l h1 h2
    cases f2 with
    | zero =>
      have hl : l = [] := List.eq_nil_of_length_eq_zero (Nat.le_zero.mp h2)
      subst hl
      simp only [splitBlocksGo, List.length_nil]
      rw [if_neg]
      omega
    | succ f2 =>
      simp only [splitBlocksGo]
      by_cases hc : 0 < bs ∧ bs ≤ l.length
      · rw [if_pos hc, if_pos hc]
        have hd : (l.drop bs).length ≤ f1 := by
          simp only [List.length_drop]; omega
        have hd2 : (l.drop bs).length ≤ f2 := by
          simp only [List.length_drop]; omega
        rw [ih f2 (l.drop bs) hd hd2]
      · rw [if_neg hc, if_neg hc]

theorem splitBlocks_lt {bs : Nat} {l : List Byte} (h : l.length < bs) :
    splitBlocks bs l = ([], l) := by
  unfold splitBlocks
  cases hn : l.length with
  | zero => rfl
  | succ m =>
    simp only [splitBlocksGo]
    rw [if_neg]
    omega

theorem splitBlocks_ge {bs : Nat} {l : List Byte} (h0 : 0 < bs)
    (h : bs ≤ l.length) :
    splitBlocks bs l =
      (l.take bs :: (splitBlocks bs (l.drop bs)).1,
       (splitBlocks bs (l.drop bs)).2) := by
  unfold splitBlocks
  cases hn : l.length with
  | zero => omega
  | succ m =>
    simp only [splitBlocksGo]
    rw [if_pos (by omega)]
    have hd : (l.drop bs).length ≤ m := by
      simp only [List.length_drop]; omega
    rw [splitBlocksGo_congr bs m (l.drop bs).length (l.drop bs) hd le_rfl]

theorem splitBlocks_rem_lt_aux {bs : Nat} (h0 : 0 < bs) :
    ∀ n (l : List Byte), l.length ≤ n → (splitBlocks bs l).2.length < bs := by
  intro n
  induction n with
  | zero =>
    intro l h
    rw [splitBlocks_lt (show l.length < bs by omega)]
    show l.length < bs
    omega
  | succ n ih =>
    intro l h
    by_cases hbs : bs ≤ l.length
    · rw [splitBlocks_ge h0 hbs]
      exact ih (l.drop bs) (by simp only [List.length_drop]; omega)
    · rw [splitBlocks_lt (show l.length < bs by omega)]
      show l.length < bs
      omega

/-- The remainder kept by the Block Buffer is always shorter than the block
size. -/
theorem splitBlocks_rem_lt {bs : Nat} (h0 : 0 < bs) (l : List Byte) :
    (splitBlocks bs l).2.length < bs :=
  splitBlocks_rem_lt_aux h0 l.length l le_rfl

theorem splitBlocks_append_aux {bs : Nat} (h0 : 0 < bs) :
    ∀ n (l m : List Byte), l.length ≤ n →
      splitBlocks bs (l ++ m) =
        ((splitBlocks bs l).1 ++ (splitBlocks bs ((splitBlocks bs l).2 ++ m)).1,
         (splitBlocks bs ((splitBlocks bs l).2 ++ m)).2) := by
  intro n
  induction n with
  | zero =>
    intro l m h
    have hl : l = [] := List.eq_nil_of_length_eq_zero (Nat.le_zero.mp h)
    subst hl
    have he : splitBlocks bs ([] : List Byte) = ([], []) :=
      splitBlocks_lt (by simpa using h0)
    rw [List.nil_append, he]
    simp
  | succ n ih =>
    intro l m h
    by_cases hbs : bs ≤ l.length
    · have h1 : bs ≤ (l ++ m).length := by
        simp only [List.length_append]; omega
      have ht : (l ++ m).take bs = l.take bs := List.take_append_of_le_length hbs
      have hd : (l ++ m).drop bs = l.drop bs ++ m := List.drop_append_of_le_length hbs
      rw [splitBlocks_ge h0 hbs, splitBlocks_ge h0 h1, ht, hd,
        ih (l.drop bs) m (by simp only [List.length_drop]; omega)]
      simp
    · have hl : splitBlocks bs l = ([], l) :=
        splitBlocks_lt (show l.length < bs by omega)
      rw [hl]
      simp

/-- Greedy block splitting is compatible with concatenation of the input. -/
theorem splitBlocks_append {bs : Nat} (h0 : 0 < bs) (l m : List Byte) :
    splitBlocks bs (l ++ m) =
      ((splitBlocks bs l).1 ++ (splitBlocks bs ((splitBlocks bs l).2 ++ m)).1,
       (splitBlocks bs ((splitBlocks bs l).2 ++ m)).2) :=
  splitBlocks_append_aux h0 l.length l m le_rfl

theorem bufUpdate_bufUpdate {σ : Type} {bs : Nat} (h0 : 0 < bs)
    (f : σ → List Byte → σ) (h : HashBuf σ) (a b : List Byte) :
    bufUpdate bs f (bufUpdate bs f h a) b = bufUpdate bs f h (a ++ b) := by
  unfold bufUpdate
  have key := splitBlocks_append h0 (h.buf ++ a) b
  rw [List.append_assoc] at key
  simp only [key, List.foldl_append]

theorem bufUpdateChunks_eq_flatten {σ : Type} {bs : Nat} (h0 : 0 < bs)
    (f : σ → List Byte → σ) :
    ∀ (chunks : List (List Byte)) (h : HashBuf σ), h.buf.length < bs →
      bufUpdateChunks bs f h chunks = bufUpdate bs f h chunks.flatten := by
  intro chunks
  induction chunks with
  | nil =>
    intro h hb
    show h = bufUpdate bs f h []
    unfold bufUpdate
    rw [List.append_nil, splitBlocks_lt hb]
    rfl
  | cons c cs ih =>
    intro h hb
    show bufUpdateChunks bs f (bufUpdate bs f h c) cs = _
    have hinv : (bufUpdate bs f h c).buf.length < bs :=
      splitBlocks_rem_lt h0 (h.buf ++ c)
    rw [ih (bufUpdate bs f h c) hinv, bufUpdate_bufUpdate h0]
    rfl

theorem runOps_buf_lt {σ : Type} {bs : Nat} (h0 : 0 < bs)
    (f : σ → List Byte → σ) (s0 : σ) :
    ∀ (ops : List HashOp) (h : HashBuf σ), h.buf.length < bs →
      (runOps bs f s0 h ops).buf.length < bs := by
  intro ops
  induction ops with
  | nil => intro h hb; exact hb
  | cons op rest ih =>
    intro h hb
    cases op with
    | update data =>
      exact ih (bufUpdate bs f h data) (splitBlocks_rem_lt h0 (h.buf ++ data))
    | reset =>
      exact ih ⟨s0, []⟩ (by simpa using h0)

/-! ### Claim C1: chunking invariance and in-order block forwarding -/

/-- C1: for every algorithm (any state type, compression step and
serialization), every message and every way of splitting it into chunks,
absorbing the chunks in order through the Block Buffer and then finalizing
gives the same digest as absorbing the whole message in one `update`
(including the empty message); moreover full blocks are forwarded to the
compression function one at a time, in input order. -/
theorem chunked_digest_eq {σ χ : Type} (bs : Nat) (hbs : 0 < bs)
    (f : σ → List Byte → σ) (fin : HashBuf σ → χ) (s0 : σ) :
    (∀ chunks : List (List Byte),
      fin (bufUpdateChunks bs f ⟨s0, []⟩ chunks) =
        fin (bufUpdate bs f ⟨s0, []⟩ chunks.flatten)) ∧
    (∀ (s : σ) (blocks : List (List Byte)), (∀ b ∈ blocks, b.length = bs) →
      bufUpdate bs f ⟨s, []⟩ blocks.flatten = ⟨blocks.foldl f s, []⟩) := by
  constructor
  · intro chunks
    rw [bufUpdateChunks_eq_flatten hbs f chunks ⟨s0, []⟩ (by simpa using hbs)]
  · intro s blocks
    induction blocks generalizing s with
    | nil =>
      intro _
      show bufUpdate bs f ⟨s, []⟩ [] = ⟨s, []⟩
      unfold bufUpdate
      rw [List.nil_append, splitBlocks_lt (by simpa using hbs)]
      rfl
    | cons b bl ih =>
      intro hall
      have hb : b.length = bs := hall b (List.mem_cons_self b bl)
      show bufUpdate bs f ⟨s, []⟩ (b ++ bl.flatten) = _
      rw [← bufUpdate_bufUpdate hbs]
      have hone : bufUpdate bs f ⟨s, []⟩ b = ⟨f s b, []⟩ := by
        unfold bufUpdate
        rw [List.nil_append, splitBlocks_ge hbs (le_of_eq hb.symm),
          show b.take bs = b by rw [← hb]; exact List.take_length b,
          show b.drop bs = [] by rw [← hb]; exact List.drop_length b,
          splitBlocks_lt (by simpa using hbs)]
        rfl
      rw [hone]
      exact ih (f s b) (fun c hc => hall c (List.mem_cons_of_mem b hc))

/-- Witness for C1 at block size 2, a concrete compression step, and the
message `[1, 2, 3]` split as `[1]` then `[2, 3]`. -/
theorem chunked_digest_eq_witness :
    0 < 2 ∧
    HashBuf.state
        (bufUpdateChunks 2 (fun (s : Nat) (b : List Byte) => s + bytesToNatLE b)
          ⟨5, []⟩ [[1], [2, 3]]) =
      HashBuf.state
        (bufUpdate 2 (fun (s : Nat) (b : List Byte) => s + bytesToNatLE b)
          ⟨5, []⟩ [[1], [2, 3]].flatten) :=
  ⟨by decide,
    congrArg HashBuf.state
      ((chunked_digest_eq 2 (by decide)
        (fun (s : Nat) (b : List Byte) => s + bytesToNatLE b) id 5).1
        [[1], [2, 3]])⟩

/-! ### Claim C10: the buffer-position invariant and non-failing padding -/

/-- C10: after any sequence of public operations (construction, updates with
arbitrary byte strings, resets) the Block Buffer's pending-byte position is
strictly below the block size, and therefore the padding calls inside the
MD2, Shabal and SHA-3 finalizations all succeed (the `expect` cannot fire). -/
theorem buffer_position_invariant {σ : Type} (bs : Nat) (hbs : 0 < bs)
    (f : σ → List Byte → σ) (s0 : σ) (ops : List HashOp) :
    (runOps bs f s0 ⟨s0, []⟩ ops).buf.length < bs ∧
    (pkcs7Pad bs (runOps bs f s0 ⟨s0, []⟩ ops).buf).isSome = true ∧
    (iso7816Pad bs (runOps bs f s0 ⟨s0, []⟩ ops).buf).isSome = true ∧
    ∀ p : Byte, (sha3Pad p bs (runOps bs f s0 ⟨s0, []⟩ ops).buf).isSome = true := by
  have hlt : (runOps bs f s0 ⟨s0, []⟩ ops).buf.length < bs :=
    runOps_buf_lt hbs f s0 ops ⟨s0, []⟩ (by simpa using hbs)
  refine ⟨hlt, ?_, ?_, ?_⟩
  · unfold pkcs7Pad
    rw [if_pos hlt]
    rfl
  · unfold iso7816Pad
    rw [if_pos hlt]
    rfl
  · intro p
    unfold sha3Pad
    rw [if_neg (by omega)]
    rfl

/-- Witness for C10 at block size 4 and a concrete operation sequence that
crosses a block boundary and resets. -/
theorem buffer_position_invariant_witness :
    0 < 4 ∧
    ((runOps 4 (fun (s : Nat) (b : List Byte) => s + bytesToNatLE b) 0
        ⟨0, []⟩ [HashOp.update [1, 2, 3, 4, 5], HashOp.reset,
          HashOp.update [9]]).buf.length < 4 ∧
      (pkcs7Pad 4 (runOps 4 (fun (s : Nat) (b : List Byte) => s + bytesToNatLE b) 0
        ⟨0, []⟩ [HashOp.update [1, 2, 3, 4, 5], HashOp.reset,
          HashOp.update [9]]).buf).isSome = true ∧
      (iso7816Pad 4 (runOps 4 (fun (s : Nat) (b : List Byte) => s + bytesToNatLE b) 0
        ⟨0, []⟩ [HashOp.update [1, 2, 3, 4, 5], HashOp.reset,
          HashOp.update [9]]).buf).isSome = true ∧
      ∀ p : Byte, (sha3Pad p 4 (runOps 4
        (fun (s : Nat) (b : List Byte) => s + bytesToNatLE b) 0
        ⟨0, []⟩ [HashOp.update [1, 2, 3, 4, 5], HashOp.reset,
          HashOp.update [9]]).buf).isSome = true) :=
  ⟨by decide,
    buffer_position_invariant 4 (by decide)
      (fun (s : Nat) (b : List Byte) => s + bytesToNatLE b) 0
      [HashOp.update [1, 2, 3, 4, 5], HashOp.reset, HashOp.update [9]]⟩

/-! ### Claim C4: SHA-3 / SHAKE / Keccak padding -/

/-- C4: the sponge padding writes the variant's domain-separation byte at the
current position, zero-fills the rest of the rate-sized block and ORs `0x80`
into the block's last byte, merging into one byte when the position is the
last byte; it succeeds for every position strictly below the rate and errs
otherwise, and finalization absorbs exactly one padded block with no length
field. -/
theorem sha3_pad_spec (p : Byte) (bs : Nat) (buf : List Byte) :
    (bs ≤ buf.length → sha3Pad p bs buf = none) ∧
    (buf.length + 1 < bs →
      sha3Pad p bs buf =
        some (buf ++ p :: List.replicate (bs - buf.length - 2) 0 ++ [0x80])) ∧
    (buf.length + 1 = bs → sha3Pad p bs buf = some (buf ++ [p ||| 0x80])) ∧
    (∀ (α : Type) (absorb : α → List Byte → α) (asBytes : α → List Byte)
        (outLen : Nat) (st : α), buf.length < bs →
      ∃ b, sha3Pad p bs buf = some b ∧
        sha3FinalizeFixed p bs absorb asBytes outLen st buf =
          some ((asBytes (absorb st b)).take outLen)) ∧
    (keccakPadByte = 0x01 ∧ sha3PadByte = 0x06 ∧ shakePadByte = 0x1f) := by
  refine ⟨?_, ?_, ?_, ?_, rfl, rfl, rfl⟩
  · intro h
    unfold sha3Pad
    rw [if_pos h]
  · intro h
    unfold sha3Pad
    rw [if_neg (by omega)]
    dsimp only
    have hk : bs - buf.length - 1 = (bs - buf.length - 2) + 1 := by omega
    rw [hk, List.replicate_succ']
    have hassoc : buf ++ p :: (List.replicate (bs - buf.length - 2) 0 ++ [0]) =
        (buf ++ p :: List.replicate (bs - buf.length - 2) 0) ++ [(0 : Byte)] := by
      simp
    rw [hassoc]
    have hLlen : (buf ++ p :: List.replicate (bs - buf.length - 2) 0).length
        = bs - 1 := by
      simp only [List.length_append, List.length_cons, List.length_replicate]
      omega
    rw [List.getD_append_right _ _ _ _ (by omega),
      List.set_append_right _ _ (by omega), hLlen, Nat.sub_self]
    simp
  · intro h
    unfold sha3Pad
    rw [if_neg (by omega)]
    dsimp only
    have hk : bs - buf.length - 1 = 0 := by omega
    rw [hk, List.replicate_zero]
    have hblen : buf.length = bs - 1 := by omega
    rw [List.getD_append_right _ _ _ _ (by omega),
      List.set_append_right _ _ (by omega), hblen, Nat.sub_self]
    rfl
  · intro α absorb asBytes outLen st h
    have hs : ∃ b, sha3Pad p bs buf = some b := by
      unfold sha3Pad
      rw [if_neg (by omega)]
      exact ⟨_, rfl⟩
    obtain ⟨b, hb⟩ := hs
    refine ⟨b, hb, ?_⟩
    unfold sha3FinalizeFixed
    rw [hb]
    rfl

/-- Witness for C4: the SHA-3 domain byte at rate 4 with one pending byte,
and the merged single-byte case at position rate minus one. -/
theorem sha3_pad_spec_witness :
    (1 : Nat) + 1 < 4 ∧ sha3Pad sha3PadByte 4 [7] = some [7, 0x06, 0, 0x80] ∧
    (3 : Nat) + 1 = 4 ∧ sha3Pad shakePadByte 4 [7, 8, 9] =
      some [7, 8, 9, 0x9f] :=
  ⟨by decide,
    by
      have h := (sha3_pad_spec sha3PadByte 4 [7]).2.1 (by decide)
      simpa using h,
    by decide,
    by
      have h := (sha3_pad_spec shakePadByte 4 [7, 8, 9]).2.2.1 (by decide)
      simpa using h⟩

/-! ### Claim C3: MD2 value-fill padding plus checksum block -/

/-- C3: MD2 finalization completes the pending block with `k = 16 - position`
bytes each equal to the literal value `k` (a full block of sixteen `0x10`
bytes when the message is block-aligned), compresses it, then compresses
exactly one extra block equal to the running checksum as updated by the
padding block itself, and emits the first 16 state bytes. -/
theorem md2_finalize_spec (S : Nat → Byte) (st : Md2St) (buf : List Byte)
    (h : buf.length < 16) :
    md2FinalizeCore S st buf =
      some (let padded := buf
              ++ List.replicate (16 - buf.length) (16 - buf.length)
            let st1 := md2Compress S st padded
            let st2 := md2Compress S st1 st1.checksum
            st2.x.take 16) ∧
    (buf = [] →
      buf ++ List.replicate (16 - buf.length) (16 - buf.length) =
        List.replicate 16 0x10) := by
  constructor
  · unfold md2FinalizeCore pkcs7Pad
    rw [if_pos h]
    rfl
  · intro hb
    subst hb
    rfl

/-- Witness for C3: the block-aligned case with the zero substitution table
and the all-zero initial state. -/
theorem md2_finalize_spec_witness :
    ([] : List Byte).length < 16 ∧
    (md2FinalizeCore (fun _ => 0)
      ⟨List.replicate 48 0, List.replicate 16 0⟩ []).isSome = true ∧
    ([] : List Byte) ++ List.replicate (16 - ([] : List Byte).length)
        (16 - ([] : List Byte).length) = List.replicate 16 0x10 :=
  ⟨by decide,
    by
      have h := (md2_finalize_spec (fun _ => 0)
        ⟨List.replicate 48 0, List.replicate 16 0⟩ [] (by decide)).1
      rw [h]
      rfl,
    (md2_finalize_spec (fun _ => 0)
      ⟨List.replicate 48 0, List.replicate 16 0⟩ [] (by decide)).2 rfl⟩

/-! ### Claim C2: Streebog finalization -/

/-- C2 counterexample: the single Streebog padding block for the empty
message places the terminator byte `0x01` at the current buffer position,
not `0x80` as claimed. -/
theorem streebog_terminator_counterexample :
    ((streebogPadBlocks []).headD []).headD 0 = 0x01 ∧
    (0x01 : Byte) ≠ 0x80 := by
  constructor
  · rfl
  · decide

/-- C2 (amended): Streebog finalization pads the final partial block by
writing the terminator byte `0x01` at the current buffer position followed by
zero fill (one block, no in-block length field), performs the last data
compression with `msg_len` equal to the pending byte count, then applies
exactly two extra finalize-only `g` applications with a zero key-counter: one
over the 512-bit message-bit-length counter `n`, then one over the 512-bit
running checksum `sigma`. -/
theorem streebog_finalize_spec (tbl : Nat → Nat → Nat) (Cc : Nat → List Byte)
    (st : StreebogSt) (buf : List Byte) (h : buf.length < 64) :
    streebogPadBlocks buf =
      [buf ++ 0x01 :: List.replicate (63 - buf.length) 0] ∧
    streebogFinalize tbl Cc st buf =
      (let block := buf ++ 0x01 :: List.replicate (63 - buf.length) 0
       let st1 := streebogCompress tbl Cc st block buf.length
       let h2 := streebogG tbl Cc st1.h (List.replicate 64 0)
         (natToLEBytes 64 st1.n)
       let h3 := streebogG tbl Cc h2 (List.replicate 64 0)
         (natToLEBytes 64 st1.sigma)
       ⟨h3, st1.n, st1.sigma⟩) := by
  have hpad : streebogPadBlocks buf =
      [buf ++ 0x01 :: List.replicate (63 - buf.length) 0] := by
    unfold streebogPadBlocks digestPad
    rw [if_pos (show buf.length + 1 + List.length ([] : List Byte) ≤ 64 by
      simp only [List.length_nil]; omega)]
    have h1 : 64 - buf.length - 1 - List.length ([] : List Byte)
        = 63 - buf.length := by
      simp only [List.length_nil]; omega
    rw [h1]
    simp
  refine ⟨hpad, ?_⟩
  unfold streebogFinalize
  rw [hpad]
  rfl

/-- Witness for C2 at the empty message, the zero table and zero round
constants. -/
theorem streebog_finalize_spec_witness :
    ([] : List Byte).length < 64 ∧
    streebogPadBlocks [] = [[] ++ 0x01 :: List.replicate (63 - 0) 0] :=
  ⟨by decide,
    (streebog_finalize_spec (fun _ _ => 0) (fun _ => List.replicate 64 0)
      ⟨List.replicate 64 0, 0, 0⟩ [] (by decide)).1⟩

/-! ### Claim C5: Tiger versus Tiger2 -/

/-- C5: Tiger and Tiger2 share the compression function (the same parameter
`f` drives both), the initial vector, and the 64-bit little-endian bit-length
suffix padding, and differ only in the terminator byte: Tiger finalization
writes `0x01`, Tiger2 writes `0x80`, before the zero fill and length field.
`tigerFinalizeWith` is the spec-side single definition parametrized by the
terminator. -/
theorem tiger_variants_spec (f : List Nat → List Byte → List Nat)
    (c : TigerSt) (buf : List Byte) (blocks : List (List Byte)) :
    tigerIV = tiger2IV ∧
    tigerUpdateBlocks f c blocks = tiger2UpdateBlocks f c blocks ∧
    tigerFinalizeCore f c buf = tigerFinalizeWith 0x01 f c buf ∧
    tiger2FinalizeCore f c buf = tigerFinalizeWith 0x80 f c buf ∧
    (∀ delim : Byte, buf.length < 56 →
      digestPad 64 delim
        (natToLEBytes 8 ((8 * (buf.length + 64 * c.blockLen)) % 2 ^ 64)) buf =
      [buf ++ delim :: List.replicate (55 - buf.length) 0
        ++ natToLEBytes 8 ((8 * (buf.length + 64 * c.blockLen)) % 2 ^ 64)]) ∧
    (∀ delim : Byte, 56 ≤ buf.length → buf.length < 64 →
      digestPad 64 delim
        (natToLEBytes 8 ((8 * (buf.length + 64 * c.blockLen)) % 2 ^ 64)) buf =
      [buf ++ delim :: List.replicate (63 - buf.length) 0,
       List.replicate 56 0
        ++ natToLEBytes 8 ((8 * (buf.length + 64 * c.blockLen)) % 2 ^ 64)]) := by
  have hlen : (natToLEBytes 8 ((8 * (buf.length + 64 * c.blockLen)) % 2 ^ 64)).length
      = 8 := by
    unfold natToLEBytes
    simp
  refine ⟨rfl, rfl, rfl, rfl, ?_, ?_⟩
  · intro delim hb
    unfold digestPad
    rw [if_pos (by omega)]
    have h1 : 64 - buf.length - 1 -
        (natToLEBytes 8 ((8 * (buf.length + 64 * c.blockLen)) % 2 ^ 64)).length
        = 55 - buf.length := by
      rw [hlen]; omega
    rw [h1]
  · intro delim hb1 hb2
    unfold digestPad
    rw [if_neg (by omega)]
    rw [hlen]
    have h1 : 64 - buf.length - 1 = 63 - buf.length := by omega
    have h2 : 64 - 8 = 56 := by omega
    rw [h1, h2]

/-- Witness for C5 at a concrete state and an empty pending buffer. -/
theorem tiger_variants_spec_witness :
    ([] : List Byte).length < 56 ∧
    digestPad 64 0x01 (natToLEBytes 8 ((8 * (0 + 64 * 2)) % 2 ^ 64)) [] =
      [[] ++ 0x01 :: List.replicate (55 - 0) 0
        ++ natToLEBytes 8 ((8 * (0 + 64 * 2)) % 2 ^ 64)] :=
  ⟨by decide,
    by
      have h := (tiger_variants_spec (fun s _ => s) ⟨[1, 2, 3], 2⟩ [] []).2.2.2.2.1
        0x01 (by decide)
      simpa using h⟩

/-! ### Claim C8: variable-output construction bounds -/

theorem blake2VarNew_ok {wbits bytesMax : Nat} (iv : List Nat) (n : Nat)
    (h : n ≤ bytesMax) :
    ∃ v, blake2VarNew wbits bytesMax iv n = Outcome.ok v := by
  unfold blake2VarNew
  rw [if_neg (by omega)]
  unfold blake2NewWithParams
  rw [if_neg (by simp only [List.length_nil]; omega)]
  exact ⟨_, rfl⟩

theorem blake2VarNew_spec (wbits bytesMax : Nat) (iv : List Nat) (n : Nat) :
    ((blake2VarNew wbits bytesMax iv n).isOk = true ↔ n ≤ bytesMax) ∧
    (blake2VarNew wbits bytesMax iv n = Outcome.err ↔ bytesMax < n) := by
  by_cases h : n ≤ bytesMax
  · obtain ⟨v, hv⟩ := blake2VarNew_ok iv n h
    rw [hv]
    constructor
    · simpa [Outcome.isOk] using h
    · simp
      omega
  · have hv : blake2VarNew wbits bytesMax iv n = Outcome.err := by
      unfold blake2VarNew
      rw [if_pos (by omega)]
    rw [hv]
    constructor
    · simp [Outcome.isOk]
      omega
    · simp
      omega

theorem groestl_new_spec (n : Nat) :
    ((groestlShortNew n).isOk = true ↔ n ≤ 32) ∧
    (groestlShortNew n = Outcome.err ↔ 32 < n) ∧
    ((groestlLongNew n).isOk = true ↔ n ≤ 64) ∧
    (groestlLongNew n = Outcome.err ↔ 64 < n) := by
  refine ⟨?_, ?_, ?_, ?_⟩ <;>
    simp only [groestlShortNew, groestlLongNew]
  · by_cases h : n ≤ 32
    · rw [if_neg (show ¬(n > 32) by omega)]
      simpa [Outcome.isOk] using h
    · rw [if_pos (by omega)]
      simp [Outcome.isOk]
      omega
  · by_cases h : n ≤ 32
    · rw [if_neg (show ¬(n > 32) by omega)]
      simp
      omega
    · rw [if_pos (by omega)]
      simp
      omega
  · by_cases h : n ≤ 64
    · rw [if_neg (show ¬(n > 64) by omega)]
      simpa [Outcome.isOk] using h
    · rw [if_pos (by omega)]
      simp [Outcome.isOk]
      omega
  · by_cases h : n ≤ 64
    · rw [if_neg (show ¬(n > 64) by omega)]
      simp
      omega
    · rw [if_pos (by omega)]
      simp
      omega

/-- C8: for every variable-output hasher, `new(output_size)` returns the
construction error exactly when the requested size exceeds the algorithm's
maximum (64 for BLAKE2b, 32 for BLAKE2s, 32 for short Groestl, 64 for long
Groestl) and succeeds for every size up to the maximum, including zero; no
other construction input makes it fail. -/
theorem var_new_bounds (iv iv2 : List Nat) (n : Nat) :
    ((blake2bNew iv n).isOk = true ↔ n ≤ 64) ∧
    (blake2bNew iv n = Outcome.err ↔ 64 < n) ∧
    ((blake2sNew iv2 n).isOk = true ↔ n ≤ 32) ∧
    (blake2sNew iv2 n = Outcome.err ↔ 32 < n) ∧
    ((groestlShortNew n).isOk = true ↔ n ≤ 32) ∧
    (groestlShortNew n = Outcome.err ↔ 32 < n) ∧
    ((groestlLongNew n).isOk = true ↔ n ≤ 64) ∧
    (groestlLongNew n = Outcome.err ↔ 64 < n) := by
  have hb := blake2VarNew_spec 64 64 iv n
  have hs := blake2VarNew_spec 32 32 iv2 n
  have hg := groestl_new_spec n
  exact ⟨hb.1, hb.2, hs.1, hs.2, hg.1, hg.2.1, hg.2.2.1, hg.2.2.2⟩

/-! ### Claim C9: BLAKE2 salt and persona bounds -/

theorem blake2PadParam_pad (cap : Nat) (s : List Byte)
    (h : s.length ≤ cap) :
    blake2PadParam cap (s ++ List.replicate (cap - s.length) 0) =
      blake2PadParam cap s := by
  unfold blake2PadParam
  split_ifs with h1 h2
  · exfalso
    simp only [List.length_append, List.length_replicate] at h1
    omega
  · exfalso
    simp only [List.length_append, List.length_replicate] at h1
    omega
  · rfl
  · simp only [show cap - s.length = 0 by omega, List.replicate_zero,
      List.append_nil]

theorem blake2_pad_eq (wbits bytesMax : Nat) (iv : List Nat)
    (salt persona : List Byte) (ks os : Nat)
    (hsl : salt.length ≤ bytesMax / 4) (hpl : persona.length ≤ bytesMax / 4) :
    blake2NewWithParams wbits bytesMax iv salt persona ks os =
      blake2NewWithParams wbits bytesMax iv
        (salt ++ List.replicate (bytesMax / 4 - salt.length) 0)
        (persona ++ List.replicate (bytesMax / 4 - persona.length) 0) ks os := by
  unfold blake2NewWithParams
  dsimp only
  rw [blake2PadParam_pad (bytesMax / 4) salt hsl,
    blake2PadParam_pad (bytesMax / 4) persona hpl]
  split_ifs with h1 h2
  · rfl
  · exfalso
    simp only [List.length_append, List.length_replicate] at *
    omega
  · exfalso
    simp only [List.length_append, List.length_replicate] at *
    omega
  · rfl

/-- C9 counterexample: constructing BLAKE2b through `new_with_params` with a
17-byte salt aborts via a failed assertion (a panic); it does not surface the
construction-error value, contradicting the claim that oversized salt or
persona fails by a `ConstructionError` returned to the caller. -/
theorem blake2_salt_counterexample :
    blake2bNewWithParams (List.replicate 8 0) (List.replicate 17 0) [] 0 64
        = Outcome.panicked ∧
    Outcome.panicked ≠ (Outcome.err : Outcome (List Nat × Nat)) := by
  constructor
  · rfl
  · decide

/-- C9 (amended): constructing a BLAKE2b (resp. BLAKE2s) hasher with a salt
or persona longer than 16 (resp. 8) bytes aborts at the constructing call via
a failed assertion in `new_with_params` — a panic, never the returned
construction-error value — and salt or persona strings shorter than that
capacity are zero-padded on the right before being mixed into the parameter
block. -/
theorem blake2_params_spec (iv iv2 : List Nat) (salt persona : List Byte)
    (ks os : Nat) :
    (ks ≤ 64 → os ≤ 64 →
      (blake2bNewWithParams iv salt persona ks os = Outcome.panicked ↔
        16 < salt.length ∨ 16 < persona.length)) ∧
    (blake2bNewWithParams iv salt persona ks os ≠ Outcome.err) ∧
    (ks ≤ 32 → os ≤ 32 →
      (blake2sNewWithParams iv2 salt persona ks os = Outcome.panicked ↔
        8 < salt.length ∨ 8 < persona.length)) ∧
    (blake2sNewWithParams iv2 salt persona ks os ≠ Outcome.err) ∧
    (salt.length ≤ 16 → persona.length ≤ 16 →
      blake2bNewWithParams iv salt persona ks os =
        blake2bNewWithParams iv (salt ++ List.replicate (16 - salt.length) 0)
          (persona ++ List.replicate (16 - persona.length) 0) ks os) ∧
    (salt.length ≤ 8 → persona.length ≤ 8 →
      blake2sNewWithParams iv2 salt persona ks os =
        blake2sNewWithParams iv2 (salt ++ List.replicate (8 - salt.length) 0)
          (persona ++ List.replicate (8 - persona.length) 0) ks os) := by
  refine ⟨?_, ?_, ?_, ?_, ?_, ?_⟩
  · intro hks hos
    unfold blake2bNewWithParams blake2NewWithParams
    by_cases hc : 16 < salt.length ∨ 16 < persona.length
    · rw [if_pos (by omega)]
      simpa using hc
    · rw [if_neg (by omega)]
      simp
      omega
  · unfold blake2bNewWithParams blake2NewWithParams
    by_cases hc : ks > 64 ∨ os > 64 ∨ salt.length > 64 / 4
        ∨ persona.length > 64 / 4
    · rw [if_pos hc]
      simp
    · rw [if_neg hc]
      simp
  · intro hks hos
    unfold blake2sNewWithParams blake2NewWithParams
    by_cases hc : 8 < salt.length ∨ 8 < persona.length
    · rw [if_pos (by omega)]
      simpa using hc
    · rw [if_neg (by omega)]
      simp
      omega
  · unfold blake2sNewWithParams blake2NewWithParams
    by_cases hc : ks > 32 ∨ os > 32 ∨ salt.length > 32 / 4
        ∨ persona.length > 32 / 4
    · rw [if_pos hc]
      simp
    · rw [if_neg hc]
      simp
  · intro hsl hpl
    exact blake2_pad_eq 64 64 iv salt persona ks os hsl hpl
  · intro hsl hpl
    exact blake2_pad_eq 32 32 iv2 salt persona ks os hsl hpl

/-! ### Claim C6: XOF reader squeeze continuity -/

theorem readBlocks_fst_length {α : Type} {rate : Nat}
    {next : α → List Byte × α} (hn : ∀ s, (next s).1.length = rate) :
    ∀ (n : Nat) (s : α), (readBlocks next s n).1.length = n * rate := by
  intro n
  induction n with
  | zero => intro s; simp [readBlocks]
  | succ n ih =>
    intro s
    simp only [readBlocks]
    rw [List.length_append, hn, ih]
    ring

theorem readBlocks_add {α : Type} (next : α → List Byte × α) :
    ∀ (m1 m2 : Nat) (s : α),
      readBlocks next s (m1 + m2) =
        ((readBlocks next s m1).1
          ++ (readBlocks next (readBlocks next s m1).2 m2).1,
         (readBlocks next (readBlocks next s m1).2 m2).2) := by
  intro m1
  induction m1 with
  | zero => intro m2 s; simp [readBlocks]
  | succ m1 ih =>
    intro m2 s
    rw [show m1 + 1 + m2 = (m1 + m2) + 1 by omega]
    simp only [readBlocks]
    rw [ih m2 (next s).2]
    simp [List.append_assoc]

theorem readerBytes_extend {α : Type} (next : α → List Byte × α)
    (r : XofReader α) {n1 n2 : Nat} (h : n1 ≤ n2) :
    readerBytes next r n2 =
      readerBytes next r n1 ++
        (readBlocks next (readBlocks next r.st n1).2 (n2 - n1)).1 := by
  unfold readerBytes
  conv_lhs => rw [show n2 = n1 + (n2 - n1) by omega]
  rw [readBlocks_add next n1 (n2 - n1) r.st]
  simp [List.append_assoc]

theorem readerBytes_take_agree {α : Type} (next : α → List Byte × α)
    (r : XofReader α) {n1 n2 k : Nat}
    (h1 : k ≤ (readerBytes next r n1).length)
    (h2 : k ≤ (readerBytes next r n2).length) :
    (readerBytes next r n1).take k = (readerBytes next r n2).take k := by
  rcases le_total n1 n2 with h | h
  · rw [readerBytes_extend next r h, List.take_append_of_le_length h1]
  · rw [readerBytes_extend next r h, List.take_append_of_le_length h2]

theorem ceil_mul_ge (a b : Nat) (hb : 0 < b) : a ≤ ((a + b - 1) / b) * b := by
  rcases Nat.eq_zero_or_pos a with ha | ha
  · subst ha; simp
  · obtain ⟨c, rfl⟩ : ∃ c, a = c + 1 := ⟨a - 1, by omega⟩
    rw [show c + 1 + b - 1 = c + b by omega, Nat.add_div_right _ hb,
      Nat.add_mul, Nat.one_mul]
    have h2 := Nat.div_add_mod c b
    have h3 : c % b < b := Nat.mod_lt _ hb
    have h5 : b * (c / b) = c / b * b := Nat.mul_comm _ _
    linarith [h2, h3, h5]

theorem readerRead_eq {α : Type} (rate : Nat) (next : α → List Byte × α)
    (r : XofReader α) (k : Nat) :
    readerRead rate next r k =
      ((readerBytes next r (readerBlocksUsed rate r k)).take k,
       ⟨(readBlocks next r.st (readerBlocksUsed rate r k)).2,
        (readerBytes next r (readerBlocksUsed rate r k)).drop k⟩) := by
  unfold readerRead readerBlocksUsed readerBytes
  by_cases hk : k ≤ r.pending.length
  · rw [if_pos hk, if_pos hk]
    simp [readBlocks]
  · rw [if_neg hk, if_neg hk]

theorem readerRead_take_le {α : Type} (rate : Nat) (hr : 0 < rate)
    (next : α → List Byte × α) (hn : ∀ s, (next s).1.length = rate)
    (r : XofReader α) (k : Nat) :
    k ≤ (readerBytes next r (readerBlocksUsed rate r k)).length := by
  unfold readerBlocksUsed
  by_cases hk : k ≤ r.pending.length
  · rw [if_pos hk]
    unfold readerBytes
    simp only [readBlocks, List.append_nil]
    omega
  · rw [if_neg hk]
    unfold readerBytes
    rw [List.length_append, readBlocks_fst_length hn]
    have h1 := ceil_mul_ge (k - r.pending.length) rate hr
    have h2 : k - r.pending.length + r.pending.length = k := by omega
    linarith [h1, h2]

theorem readerRead_snd_bytes {α : Type} (rate : Nat) (hr : 0 < rate)
    (next : α → List Byte × α) (hn : ∀ s, (next s).1.length = rate)
    (r : XofReader α) (k n : Nat) :
    readerBytes next (readerRead rate next r k).2 n =
      (readerBytes next r (readerBlocksUsed rate r k + n)).drop k := by
  rw [readerRead_eq rate next r k]
  show (readerBytes next r (readerBlocksUsed rate r k)).drop k
      ++ (readBlocks next
        (readBlocks next r.st (readerBlocksUsed rate r k)).2 n).1 = _
  rw [readerBytes_extend next r
    (Nat.le_add_right (readerBlocksUsed rate r k) n),
    show readerBlocksUsed rate r k + n - readerBlocksUsed rate r k = n by omega,
    List.drop_append_of_le_length (readerRead_take_le rate hr next hn r k)]

/-- C6: reading `k` bytes and then `j` more bytes from one XOF reader yields
the same byte sequence as the first `k + j` bytes of a single read from the
same starting reader, for all `k, j`; and `read_block` serializes the first
`rate` bytes of the current state and then applies the permutation in place
exactly once, so `n` blocks read are the serializations of the successively
permuted states. -/
theorem xof_read_continuity {α : Type} (rate : Nat) (hr : 0 < rate)
    (next : α → List Byte × α) (hn : ∀ s, (next s).1.length = rate)
    (r : XofReader α) (k j : Nat) :
    ((readerRead rate next r k).1 ++
        (readerRead rate next (readerRead rate next r k).2 j).1 =
      (readerRead rate next r (k + j)).1) ∧
    (∀ (asBytes : α → List Byte) (applyF : α → α) (s : α) (n : Nat),
      readBlocks (readBlockCore rate asBytes applyF) s n =
        (((List.range n).map fun i => (asBytes (applyF^[i] s)).take rate).flatten,
         applyF^[n] s)) := by
  constructor
  · set m1 := readerBlocksUsed rate r k with hm1
    set r1 := (readerRead rate next r k).2 with hr1
    set m2 := readerBlocksUsed rate r1 j with hm2
    have e1 : (readerRead rate next r k).1 =
        (readerBytes next r m1).take k := by
      rw [readerRead_eq]
    have e2 : (readerRead rate next r1 j).1 =
        (readerBytes next r1 m2).take j := by
      rw [readerRead_eq]
    have e3 : readerBytes next r1 m2 =
        (readerBytes next r (m1 + m2)).drop k :=
      readerRead_snd_bytes rate hr next hn r k m2
    have lk : k ≤ (readerBytes next r m1).length :=
      readerRead_take_le rate hr next hn r k
    have lmono : (readerBytes next r m1).length ≤
        (readerBytes next r (m1 + m2)).length := by
      rw [readerBytes_extend next r (Nat.le_add_right m1 m2)]
      simp
    have lk2 : k ≤ (readerBytes next r (m1 + m2)).length :=
      le_trans lk lmono
    have lj : j ≤ (readerBytes next r1 m2).length :=
      readerRead_take_le rate hr next hn r1 j
    have lj2 : j ≤ (readerBytes next r (m1 + m2)).length - k := by
      rw [e3] at lj
      simpa [List.length_drop] using lj
    have o1 : (readerRead rate next r k).1 =
        (readerBytes next r (m1 + m2)).take k := by
      rw [e1]
      exact readerBytes_take_agree next r lk lk2
    have o2 : (readerRead rate next r1 j).1 =
        ((readerBytes next r (m1 + m2)).drop k).take j := by
      rw [e2, e3]
    have e4 : (readerRead rate next r (k + j)).1 =
        (readerBytes next r (readerBlocksUsed rate r (k + j))).take (k + j) := by
      rw [readerRead_eq]
    have lkj : k + j ≤
        (readerBytes next r (readerBlocksUsed rate r (k + j))).length :=
      readerRead_take_le rate hr next hn r (k + j)
    have lkj2 : k + j ≤ (readerBytes next r (m1 + m2)).length := by omega
    rw [o1, o2, e4, ← List.take_add]
    exact readerBytes_take_agree next r lkj2 lkj
  · intro asBytes applyF s n
    induction n generalizing s with
    | zero => simp [readBlocks]
    | succ n ih =>
      simp only [readBlocks]
      dsimp only [readBlockCore]
      rw [ih (applyF s), List.range_succ_eq_map]
      simp only [List.map_cons, List.flatten_cons, Function.iterate_zero_apply,
        Prod.mk.injEq, List.map_map]
      exact ⟨rfl, (Function.iterate_succ_apply applyF n s).symm⟩

/-- Witness for C6 at rate 2, a concrete block source and the split 3 + 2. -/
theorem xof_read_continuity_witness :
    (0 : Nat) < 2 ∧
    ((readerRead 2 (fun s : Nat => ([s % 256, (s + 1) % 256], s + 2))
        ⟨0, []⟩ 3).1 ++
      (readerRead 2 (fun s : Nat => ([s % 256, (s + 1) % 256], s + 2))
        (readerRead 2 (fun s : Nat => ([s % 256, (s + 1) % 256], s + 2))
          ⟨0, []⟩ 3).2 2).1 =
      (readerRead 2 (fun s : Nat => ([s % 256, (s + 1) % 256], s + 2))
        ⟨0, []⟩ 5).1) :=
  ⟨by decide,
    (xof_read_continuity 2 (by decide)
      (fun s : Nat => ([s % 256, (s + 1) % 256], s + 2))
      (fun _ => rfl) ⟨0, []⟩ 3 2).1⟩

/-! ### Claim C7: reader independence from the source hasher -/

theorem pairAdvance_fst {γ β : Type} (next : β → List Byte × β) :
    ∀ (n : Nat) (a : γ) (b : β), ((pairAdvance next)^[n] (a, b)).1 = a := by
  intro n
  induction n with
  | zero => intro a b; rfl
  | succ n ih =>
    intro a b
    rw [Function.iterate_succ_apply]
    exact ih a (next b).2

/-- C7: `finalize_xof` clones the post-padding state into the reader, so the
reader starts from a value equal to the hasher's state and never shares
mutable state with it: advancing the reader any number of `read_block` steps
leaves any retained companion value — the source hasher's state or another
reader — unchanged. -/
theorem xof_reader_frame {α : Type} (p : Byte) (bs : Nat)
    (absorb : α → List Byte → α) (st : α) (buf : List Byte)
    (h : buf.length < bs) :
    ∃ b, sha3Pad p bs buf = some b ∧
      finalizeXofCore p bs absorb st buf = some (absorb st b, absorb st b) ∧
      (∀ (γ : Type) (a : γ) (next : α → List Byte × α) (n : Nat),
        ((pairAdvance next)^[n] (a, absorb st b)).1 = a) := by
  have hs : ∃ b, sha3Pad p bs buf = some b := by
    unfold sha3Pad
    rw [if_neg (by omega)]
    exact ⟨_, rfl⟩
  obtain ⟨b, hb⟩ := hs
  refine ⟨b, hb, ?_, ?_⟩
  · unfold finalizeXofCore
    rw [hb]
    rfl
  · intro γ a next n
    exact pairAdvance_fst next n a (absorb st b)

/-- Witness for C7 at a concrete absorb function and pending buffer. -/
theorem xof_reader_frame_witness :
    ([1, 2] : List Byte).length < 4 ∧
    (finalizeXofCore shakePadByte 4
      (fun (s : Nat) (b : List Byte) => s + b.length) 0 [1, 2]).isSome = true :=
  ⟨by decide, by
    obtain ⟨b, hb, hfin, hfr⟩ := xof_reader_frame shakePadByte 4
      (fun (s : Nat) (b : List Byte) => s + b.length) 0 [1, 2] (by decide)
    rw [hfin]
    rfl⟩

end Hashes
